import Mathlib

/-!
Shallow embedding of the kg-visualizer CNF pipeline.

The JavaScript source represents a grammar as a plain object mapping
nonterminal names (strings such as "S", "S0") to arrays of production
strings (such as "aSb", "eps", "ε").  We mirror this with association
lists of `String × List String`, preserving the insertion order that the
JS object / `Set` iteration order exposes.  JS `while` loops that grow a
finite set are embedded with an explicit fuel argument large enough that
the fuel never runs out (proved where a general theorem needs it); all
definitions are structurally recursive so that concrete runs reduce.
-/

namespace KG

/-- Production table: insertion-ordered association list, mirroring a JS
object keyed by nonterminal name.  Keys are unique. -/
abbrev Table := List (String × List String)

/-- Mirrors `productions[v] || []`. -/
def tableLookup (t : Table) (k : String) : List String :=
  match t.find? (fun p => p.1 = k) with
  | some p => p.2
  | none => []

/-- Key list of a table (JS `Object.keys`, insertion order). -/
def tableKeys (t : Table) : List String := t.map Prod.fst

/-- Mirrors `obj[k] = v`: replaces the binding in place if the key
exists, otherwise appends it (JS insertion-order semantics). -/
def tableSet (t : Table) (k : String) (v : List String) : Table :=
  match t with
  | [] => [(k, v)]
  | (k', v') :: rest =>
    if k' = k then (k, v) :: rest else (k', v') :: tableSet rest k v

/-- Mirrors `set.add(x)` on a JS `Set` viewed as an insertion-ordered
list: appends only when absent. -/
def listAdd (l : List String) (x : String) : List String :=
  if x ∈ l then l else l ++ [x]

/-- Code-unit lexicographic comparison, the JS `<` on strings. -/
def charListLt : List Char → List Char → Bool
  | [], [] => false
  | [], _ :: _ => true
  | _ :: _, [] => false
  | c :: cs, d :: ds =>
    if c.toNat < d.toNat then true
    else if d.toNat < c.toNat then false
    else charListLt cs ds

/-- String comparison used by the JS sorts. -/
def strLt (a b : String) : Bool := charListLt a.data b.data

/-- Insertion step for sorting strings in ascending code-unit order. -/
def insertSorted (x : String) (l : List String) : List String :=
  match l with
  | [] => [x]
  | y :: ys => if strLt x y then x :: y :: ys else y :: insertSorted x ys

/-- Sorting used for the JS `Array.sort()` / `localeCompare` sorts over
uppercase-plus-digit names (both coincide with code-unit order there). -/
def sortStrs (l : List String) : List String := l.foldr insertSorted []

/-- Mirrors the JS regex test `/^[a-z]$/` (`isTerminal`). -/
def isTerminalS (s : String) : Bool :=
  match s.data with
  | [c] => c.isLower
  | _ => false

/-- Mirrors the JS regex test `/^[A-Z][0-9]*$/` (`isNonTerminal`). -/
def isNonTerminalS (s : String) : Bool :=
  match s.data with
  | [] => false
  | c :: rest => c.isUpper && rest.all (fun d => d.isDigit)

/-- Epsilon test of `parseGrammar.js` (`symbol === 'ε'`). -/
def isEpsilonS (s : String) : Bool := s = "ε"

/-- Symbol scanner shared by every stage's `parseSymbols`: an uppercase
letter grabs the digits that follow it, any other character stands
alone.  The `Option` state holds the uppercase symbol being built
(reversed), mirroring the JS index loop. -/
def psAux : List Char → Option (List Char) → List String
  | [], none => []
  | [], some acc => [String.mk acc.reverse]
  | c :: rest, none =>
    if c.isUpper then psAux rest (some [c])
    else String.mk [c] :: psAux rest none
  | c :: rest, some acc =>
    if c.isDigit then psAux rest (some (c :: acc))
    else
      String.mk acc.reverse ::
        (if c.isUpper then psAux rest (some [c])
         else String.mk [c] :: psAux rest none)

/-- Symbol list of a production string (the loop body common to all
`parseSymbols` copies in the source). -/
def psCore (s : String) : List String := psAux s.data none

end KG

namespace KG

/-! ### parseGrammar.js -/

/-- Parsed grammar record, mirroring `createEmptyGrammar` plus the
`finalizeGrammar` array forms of the two symbol sets. -/
structure Grammar where
  startSymbol : String
  productions : Table
  nonTerminals : List String
  terminals : List String
  errors : List String
deriving Repr, DecidableEq

/-- The skeleton produced by `createEmptyGrammar`. -/
def createEmptyGrammar : Grammar :=
  { startSymbol := "S", productions := [], nonTerminals := [],
    terminals := [], errors := [] }

/-- Splits a list at every occurrence of a separator element, JS
`split` semantics (n separators yield n+1 pieces). -/
def splitOnChar (sep : Char) : List Char → List (List Char)
  | [] => [[]]
  | c :: rest =>
    let r := splitOnChar sep rest
    if c = sep then [] :: r
    else
      match r with
      | [] => [[c]]
      | piece :: more => (c :: piece) :: more

/-- JS `String.prototype.trim` on the ASCII whitespace that the inputs
use. -/
def trimChars (l : List Char) : List Char :=
  let ws := fun c : Char => c = ' ' ∨ c = '\t' ∨ c = '\n' ∨ c = '\r'
  (l.dropWhile ws).reverse.dropWhile ws |>.reverse

/-- Splits a character list on a two-character arrow `->`, mirroring
`line.split('->')`. -/
def splitOnArrow : List Char → List (List Char)
  | [] => [[]]
  | [c] => [[c]]
  | c :: d :: rest =>
    if c = '-' ∧ d = '>' then
      [] :: splitOnArrow rest
    else
      match splitOnArrow (d :: rest) with
      | [] => [[c]]
      | piece :: more => (c :: piece) :: more

/-- Mirrors `normalizeProductions`: split the right-hand side on `|`,
convert `_` to `ε`, strip everything but letters and `ε`, collapse mixed
`ε`, and deduplicate, dropping empties. -/
def normalizeProductions (rhs : List Char) : List String :=
  let pieces := (splitOnChar '|' rhs).map trimChars
  let cleanedOne := fun (prod : List Char) =>
    let withEps := prod.map (fun c => if c = '_' then 'ε' else c)
    let cleaned := withEps.filter (fun c => c.isLower ∨ c.isUpper ∨ c = 'ε')
    if cleaned = ['ε'] then "ε"
    else if 'ε' ∈ cleaned then String.mk (cleaned.filter (fun c => ¬ c = 'ε'))
    else String.mk cleaned
  let cleanedList := pieces.map cleanedOne
  (cleanedList.filter (fun p => ¬ p = "")).foldl
    (fun acc p => if p ∈ acc then acc else acc ++ [p]) []

/-- Mirrors `parseGrammarLine`: split on `->`, keep the first two
pieces, strip non-uppercase characters from the left-hand side. -/
def parseGrammarLine (line : List Char) : Option (String × List String) :=
  let parts := (splitOnArrow line).map trimChars
  match parts with
  | [] => none
  | [_] => none
  | lhs :: rhs :: _ =>
    if rhs = [] ∨ lhs = [] then none
    else
      let lhsClean := lhs.filter (fun c => c.isUpper)
      if lhsClean = [] then none
      else some (String.mk lhsClean, normalizeProductions rhs)

/-- Mirrors `addUniqueProductions`. -/
def addUniqueProductions (target : List String) (prods : List String) : List String :=
  prods.foldl (fun acc p => if p ∈ acc then acc else acc ++ [p]) target

/-- Mirrors `collectSymbols`, threading the two symbol sets. -/
def collectSymbols (nts ts : List String) (prods : List String) :
    List String × List String :=
  prods.foldl
    (fun (acc : List String × List String) prod =>
      if prod = "ε" then (listAdd acc.1 "ε", acc.2)
      else
        prod.data.foldl
          (fun (acc : List String × List String) c =>
            if c.isUpper then (listAdd acc.1 (String.mk [c]), acc.2)
            else if c.isLower then (acc.1, listAdd acc.2 (String.mk [c]))
            else acc)
          acc)
    (nts, ts)

/-- One line of the `parseGrammar` main loop. -/
def parseLineStep (g : Grammar) (line : List Char) : Grammar :=
  match parseGrammarLine line with
  | none => { g with errors := g.errors ++ [String.mk (trimChars line)] }
  | some (lhs, prods) =>
    let nts := listAdd g.nonTerminals lhs
    let tbl :=
      if lhs ∈ tableKeys g.productions then g.productions
      else g.productions ++ [(lhs, [])]
    let tbl := tableSet tbl lhs (addUniqueProductions (tableLookup tbl lhs) prods)
    let (nts, ts) := collectSymbols nts g.terminals prods
    { g with productions := tbl, nonTerminals := nts, terminals := ts }

/-- Mirrors `ensureStartSymbol`: guarantee a (possibly empty) rule slot
for `S`. -/
def ensureStartSymbol (g : Grammar) : Grammar :=
  if "S" ∈ tableKeys g.productions then g
  else { g with productions := g.productions ++ [("S", [])],
                nonTerminals := listAdd g.nonTerminals "S" }

/-- Embedding of `parseGrammar`: split into lines, drop blank lines,
fold the per-line step, then ensure the start symbol. -/
def parseGrammar (text : String) : Grammar :=
  let lines := (splitOnChar '\n' text.data).filter (fun l => ¬ trimChars l = [])
  ensureStartSymbol (lines.foldl parseLineStep createEmptyGrammar)

end KG

namespace KG

/-! ### step_1_searchProductive.js -/

/-- Mirrors `isTerminalOnly`: epsilon counts, otherwise every parsed
symbol must be a single lowercase terminal. -/
def isTerminalOnly (p : String) : Bool :=
  if isEpsilonS p then true else (psCore p).all isTerminalS

/-- Mirrors `isProductive(production, productiveSet)`. -/
def isProductiveProd (p : String) (S : List String) : Bool :=
  if isEpsilonS p then true
  else (psCore p).all (fun s => isTerminalS s || S.contains s)

/-- Mirrors `checkForTerminalProduction`. -/
def checkForTerminalProduction (prods : List String) : Bool :=
  prods.any isTerminalOnly

/-- Mirrors `checkForProductiveProduction`. -/
def checkForProductiveProduction (prods : List String) (S : List String) : Bool :=
  prods.any (fun p => isProductiveProd p S)

/-- One full pass of the productivity fixpoint: scan the nonterminal
list in order, adding any not-yet-member whose rule list has a
production that is productive with respect to the set built so far
(the JS inner `for` loop of `computeIsProductive`, epsilon skipped). -/
def productivePass (nts : List String) (tbl : Table) (S : List String) : List String :=
  nts.foldl
    (fun S v =>
      if isEpsilonS v ∨ v ∈ S then S
      else if checkForProductiveProduction (tableLookup tbl v) S then S ++ [v]
      else S)
    S

/-- The `while (changed)` loop of `computeIsProductive`, with explicit
fuel; `productiveLoop_fix` below shows the standard fuel suffices. -/
def productiveLoop (nts : List String) (tbl : Table) : Nat → List String → List String
  | 0, S => S
  | Nat.succ f, S =>
    if productivePass nts tbl S = S then S
    else productiveLoop nts tbl f (productivePass nts tbl S)

/-- Initial pass of `computeIsProductive`: variables owning a
terminal-only production. -/
def productiveInit (nts : List String) (tbl : Table) : List String :=
  nts.foldl
    (fun S v =>
      if isEpsilonS v then S
      else if checkForTerminalProduction (tableLookup tbl v) then listAdd S v
      else S)
    []

/-- Embedding of `computeIsProductive`: the productive variable set and
the emptiness flag `!productiveSet.has(startSymbol)`. -/
def computeIsProductive (g : Grammar) : List String × Bool :=
  let S0 := productiveInit g.nonTerminals g.productions
  let S := productiveLoop g.nonTerminals g.productions (g.nonTerminals.length + 1) S0
  (S, ! S.contains g.startSymbol)

/-- Breadth-first reachability of `getReachableVariables`, with the
queue explicit and fuel bounding the number of dequeues. -/
def reachableBFS (tbl : Table) : Nat → List String → List String → List String
  | 0, reach, _ => reach
  | Nat.succ _, reach, [] => reach
  | Nat.succ f, reach, v :: queue =>
    if v ∈ reach then reachableBFS tbl f reach queue
    else
      let reach := reach ++ [v]
      let newNts :=
        (tableLookup tbl v).foldl
          (fun acc prod =>
            (psCore prod).foldl
              (fun acc sym =>
                if isNonTerminalS sym ∧ ¬ sym ∈ reach then acc ++ [sym] else acc)
              acc)
          []
      reachableBFS tbl f reach (queue ++ newNts)

/-- Fuel bound for the breadth-first search: every production symbol of
the table is a queue candidate at most once per occurrence. -/
def bfsFuel (tbl : Table) : Nat :=
  tbl.foldl (fun n p => n + 1 + (p.2.map (fun prod => (psCore prod).length)).sum) 1

/-- Mirrors `getReachableVariables({productions, startSymbol})`. -/
def getReachableVariables (tbl : Table) (startSymbol : String) : List String :=
  reachableBFS tbl (bfsFuel tbl) [] [startSymbol]

end KG

namespace KG

/-! ### step_2_buildBaseCNF.js -/

/-- Mirrors `getValidProductions`: keep `eps` outright, otherwise keep
a production only if every single character is a lowercase terminal or
a member of the productive set (note the character-wise split). -/
def getValidProductions (prods : List String) (productiveSet : List String) :
    List String :=
  prods.foldl
    (fun acc prod =>
      if prod = "eps" then acc ++ [prod]
      else if prod.data.all
          (fun c => isTerminalS (String.mk [c]) || productiveSet.contains (String.mk [c])) then
        acc ++ [prod]
      else acc)
    []

/-- Mirrors `getSortedProductiveVars`: the start symbol first, then the
remaining productive variables sorted. -/
def getSortedProductiveVars (productiveSet : List String) (startSymbol : String) :
    List String :=
  startSymbol :: sortStrs (productiveSet.filter (fun v => ¬ v = startSymbol))

/-- Table part of `generateCNFBuildSteps`: rule lists restricted to
productive symbols, start symbol first, variables with no surviving
production omitted. -/
def buildBaseCNF (g : Grammar) (productiveSet : List String) : Table :=
  let startValid := getValidProductions (tableLookup g.productions g.startSymbol) productiveSet
  let base : Table := if startValid.length > 0 then [(g.startSymbol, startValid)] else []
  (getSortedProductiveVars productiveSet g.startSymbol).foldl
    (fun base v =>
      if v = g.startSymbol then base
      else
        let valid := getValidProductions (tableLookup g.productions v) productiveSet
        if valid.length = 0 then base else base ++ [(v, valid)])
    base

end KG

namespace KG

/-! ### step_3_removeEpsAndUnit.js -/

/-- The `parseSymbols` copy of step 3, whose epsilon marker is the
three-character string `eps`. -/
def psEps (p : String) : List String :=
  if p = "eps" then ["eps"] else psCore p

/-- Leading-match test for the substring search. -/
def charListIsPre : List Char → List Char → Bool
  | [], _ => true
  | _ :: _, [] => false
  | c :: cs, d :: ds => c = d && charListIsPre cs ds

/-- Occurrence test of a needle inside a haystack suffix chain. -/
def charListHasSub (needle : List Char) : List Char → Bool
  | [] => needle.isEmpty
  | c :: rest => charListIsPre needle (c :: rest) || charListHasSub needle rest

/-- JS `prod.includes(epsVar)`: contiguous substring test. -/
def strIncludes (hay needle : String) : Bool :=
  charListHasSub needle.data hay.data

/-- Position-indexed filter used to embed JS index loops. -/
def filterIdx (l : List String) (keep : Nat → Bool) : List String :=
  (l.enum.filter (fun p => keep p.1)).map Prod.snd

/-- Mirrors `generateVariantsWithoutVariable`: every nonempty subset of
the occurrence positions of `variable` is deleted, masks enumerated in
increasing order, duplicates dropped first-wins. -/
def generateVariantsWithoutVariable (production varSym : String) : List String :=
  let symbols := psEps production
  let positions := (symbols.enum.filter (fun p => p.2 = varSym)).map Prod.fst
  if positions = [] then []
  else
    let total := 2 ^ positions.length
    (List.range total).foldl
      (fun variants mask =>
        if mask = 0 then variants
        else
          let result :=
            symbols.enum.foldl
              (fun acc (p : Nat × String) =>
                match positions.indexOf? p.1 with
                | none => acc ++ [p.2]
                | some posIndex =>
                  if mask.testBit posIndex then acc else acc ++ [p.2])
              []
          let variant := String.join result
          if variant.length > 0 ∧ ¬ variants.contains variant then variants ++ [variant]
          else variants)
      []

/-- The `S0` introduction of `generateRemoveEpsilonSteps` (step 1 of the
stage): the new start rule is `oldStart | eps` exactly when the old
start symbol owns an `eps` production. -/
def introNewStart (tbl : Table) (oldStart newStart : String) : Table :=
  tableSet tbl newStart
    (if (tableLookup tbl oldStart).contains "eps" then [oldStart, "eps"] else [oldStart])

/-- The nullable-variable collection of the stage (step 2): every
variable other than the new start symbol that owns a direct `eps`
production, in table key order. -/
def findNullableVars (tbl : Table) (newStart : String) : List String :=
  (tableKeys tbl).foldl
    (fun acc A =>
      if ¬ A = newStart ∧ (tableLookup tbl A).contains "eps" then listAdd acc A
      else acc)
    []

/-- The `affectedRules` map of one elimination round: rules mentioning
the nullable variable (substring test), in table key order. -/
def epsAffectedRules (tbl : Table) (epsVar : String) : List (String × List String) :=
  (tableKeys tbl).foldl
    (fun acc A =>
      let hits := (tableLookup tbl A).filter
        (fun prod => ¬ prod = "eps" ∧ strIncludes prod epsVar)
      if hits = [] then acc else acc ++ [(A, hits)])
    []

/-- The `rulesToAdd` map of one elimination round: deletion variants not
already present. -/
def epsRulesToAdd (tbl : Table) (epsVar : String) : List (String × List String) :=
  (epsAffectedRules tbl epsVar).map
    (fun (p : String × List String) =>
      let A := p.1
      (A, p.2.foldl
        (fun acc prod =>
          (generateVariantsWithoutVariable prod epsVar).foldl
            (fun acc v =>
              if ¬ v = "" ∧ ¬ acc.contains v ∧ ¬ v = "eps" ∧
                  ¬ (tableLookup tbl A).contains v then
                acc ++ [v]
              else acc)
            acc)
        []))

/-- One elimination round of the stage for a single nullable variable:
collect the rules mentioning it (substring test), add the deletion
variants, then drop the variable's own `eps` production. -/
def eliminateEpsVar (tbl : Table) (epsVar : String) : Table :=
  let rulesToAdd := epsRulesToAdd tbl epsVar
  let tbl :=
    rulesToAdd.foldl
      (fun tbl (p : String × List String) =>
        tableSet tbl p.1
          (p.2.foldl
            (fun cur rule =>
              if ¬ rule = "" ∧ ¬ rule = "eps" ∧ ¬ cur.contains rule then cur ++ [rule]
              else cur)
            (tableLookup tbl p.1)))
      tbl
  if epsVar ∈ tableKeys tbl then
    tableSet tbl epsVar ((tableLookup tbl epsVar).filter (fun p => ¬ p = "eps"))
  else tbl

/-- Steps 2-4 of the epsilon part: eliminate each nullable variable in
order, then strip every remaining `eps` production except on the new
start symbol. -/
def epsEliminationLoop (tbl : Table) (nullableVars : List String) (newStart : String) :
    Table :=
  let tbl := nullableVars.foldl eliminateEpsVar tbl
  tbl.map
    (fun (p : String × List String) =>
      if p.1 = newStart then p else (p.1, p.2.filter (fun q => ¬ q = "eps")))

/-- Mirrors `computeUnitClosure` including its defect: each pass only
re-reads the variable's own direct unit productions, so the closure is
reflexive plus one step, never transitive. -/
def unitClosurePass (tbl : Table) (closure : List (String × List String)) :
    List (String × List String) :=
  closure.map
    (fun (p : String × List String) =>
      (p.1,
        (tableLookup tbl p.1).foldl
          (fun acc prod =>
            if isNonTerminalS prod ∧ ¬ acc.contains prod then acc ++ [prod] else acc)
          p.2))

/-- Fuelled `while (changed)` loop of `computeUnitClosure`. -/
def unitClosureLoop (tbl : Table) : Nat → List (String × List String) →
    List (String × List String)
  | 0, closure => closure
  | Nat.succ f, closure =>
    let closure' := unitClosurePass tbl closure
    if closure' = closure then closure else unitClosureLoop tbl f closure'

/-- Embedding of `computeUnitClosure`. -/
def computeUnitClosure (tbl : Table) : List (String × List String) :=
  let initial := (tableKeys tbl).map (fun v => (v, [v]))
  unitClosureLoop tbl (tbl.length + 1) initial

/-- Closure lookup (`closure[A]`, defaulting to the empty set). -/
def closureLookup (closure : List (String × List String)) (k : String) : List String :=
  match closure.find? (fun p => p.1 = k) with
  | some p => p.2
  | none => []

end KG

namespace KG

/-- Propagation body of the unit-elimination pass for one variable `A`:
collect the non-unit productions of the closure members (protection
rule: skip bodies mentioning the new start symbol unless `A` is it),
then append the new ones to `A`'s rule list. -/
def processUnitVar (newStart : String) (closure : List (String × List String))
    (up : Table) (A : String) : Table :=
  let reach := closureLookup closure A
  let toAdd :=
    reach.foldl
      (fun toAdd B =>
        if B = A then toAdd
        else
          (tableLookup up B).foldl
            (fun toAdd prod =>
              if ¬ isNonTerminalS prod ∧ ¬ toAdd.contains prod then
                if ¬ A = newStart ∧ (psEps prod).contains newStart then toAdd
                else toAdd ++ [prod]
              else toAdd)
            toAdd)
      []
  if toAdd = [] then up
  else
    let up := if A ∈ tableKeys up then up else up ++ [(A, [])]
    let cur := tableLookup up A
    let addedProds := toAdd.filter (fun p => ¬ cur.contains p)
    if addedProds = [] then up
    else
      tableSet up A
        (addedProds.foldl
          (fun cur prod => if cur.contains prod then cur else cur ++ [prod])
          cur)

/-- Mirrors `expandStartSymbolInProduction`. -/
def expandStartSymbolInProduction (symbols : List String) (startSym : String)
    (s0Productions : List String) : List String :=
  if ¬ symbols.contains startSym then [String.join symbols]
  else if s0Productions = [] then []
  else
    s0Productions.foldl
      (fun result s0Prod =>
        let s0Symbols := psEps s0Prod
        let newSymbols :=
          symbols.foldl
            (fun acc s => if s = startSym then acc ++ s0Symbols else acc ++ [s])
            []
        let expanded := String.join newSymbols
        if ¬ expanded = "" ∧ ¬ expanded = "eps" then result ++ [expanded] else result)
      []

/-- Mirrors `protectStartSymbol`: substitute the new start symbol out
of every other right-hand side using its non-`eps`, non-self-referential
productions; reports whether anything changed. -/
def protectStartSymbol (tbl : Table) (startSym : String) : Bool × Table :=
  let s0Productions :=
    ((tableLookup tbl startSym).filter (fun p => ¬ p = "eps")).filter
      (fun p => ¬ (psEps p).contains startSym)
  if s0Productions = [] then (false, tbl)
  else
    tbl.foldl
      (fun (st : Bool × Table) (entry : String × List String) =>
        let A := entry.1
        if A = startSym then st
        else
          let res :=
            (tableLookup st.2 A).foldl
              (fun (res : Bool × List String) prod =>
                let symbols := psEps prod
                if symbols.contains startSym then
                  (true,
                    (expandStartSymbolInProduction symbols startSym s0Productions).foldl
                      (fun newProds exp =>
                        if ¬ exp = "" ∧ ¬ exp = "eps" ∧ ¬ newProds.contains exp then
                          newProds ++ [exp]
                        else newProds)
                      res.2)
                else (res.1, res.2 ++ [prod]))
              (st.1, [])
          (res.1, tableSet st.2 A res.2))
      (false, tbl)

/-- The reachability search of step 3 (`computeReachableVars`): marks
nonterminals at discovery time, queue processed with fuel. -/
def reachableBFS3 (tbl : Table) : Nat → List String → List String → List String
  | 0, reach, _ => reach
  | Nat.succ _, reach, [] => reach
  | Nat.succ f, reach, v :: queue =>
    let st :=
      (tableLookup tbl v).foldl
        (fun (st : List String × List String) prod =>
          (psEps prod).foldl
            (fun (st : List String × List String) sym =>
              if isNonTerminalS sym ∧ ¬ st.1.contains sym then
                (st.1 ++ [sym], st.2 ++ [sym])
              else st)
            st)
        (reach, queue)
    reachableBFS3 tbl f st.1 st.2

/-- Mirrors step 3's `computeReachableVars(prods, startSym)`. -/
def computeReachableVars (tbl : Table) (startSym : String) : List String :=
  reachableBFS3 tbl (bfsFuel tbl) [startSym] [startSym]

/-- Outcome of the epsilon/unit stage: the table after the epsilon part
(`updated`), the table attached to the stage's last emitted snapshot,
and the flags that gate its conditional steps. -/
structure EpsUnitResult where
  updated : Table
  finalTable : Table
  nullableVars : List String
  hasUnit : Bool
  s0WasRemoved : Bool
  processedVars : List String
deriving Repr, DecidableEq

/-- Grammar-table part of `generateRemoveEpsilonSteps`: the `S0`
introduction, the (direct-`eps`-only) nullable collection and
elimination, then — when any unit production exists — the unit
propagation, deletion, start-symbol protection and reachability
trimming. -/
def removeEpsAndUnitRun (g : Grammar) (cnfGraph : Table) : EpsUnitResult :=
  let oldStart := if g.startSymbol = "" then "S" else g.startSymbol
  let newStart := "S0"
  let productions := if cnfGraph.length > 0 then cnfGraph else g.productions
  let newProductions := introNewStart productions oldStart newStart
  let nullable := findNullableVars newProductions newStart
  let updated :=
    if nullable.length > 0 then epsEliminationLoop newProductions nullable newStart
    else newProductions
  let hasUnit := (tableKeys updated).any (fun A => (tableLookup updated A).any isNonTerminalS)
  if ¬ hasUnit then
    { updated := updated, finalTable := updated, nullableVars := nullable,
      hasUnit := false, s0WasRemoved := false, processedVars := [] }
  else
    let closure := computeUnitClosure updated
    let sortedVars := sortStrs (tableKeys updated)
    let unitProcessed := sortedVars.foldl (processUnitVar newStart closure) updated
    let processedVars :=
      sortedVars.filter (fun A => ¬ tableLookup unitProcessed A = tableLookup updated A)
    let finalGrammar :=
      unitProcessed.map
        (fun (p : String × List String) => (p.1, p.2.filter (fun q => ¬ isNonTerminalS q)))
    let prot := protectStartSymbol finalGrammar newStart
    let reach := computeReachableVars prot.2 newStart
    let cleaned := reach.map (fun v => (v, tableLookup prot.2 v))
    { updated := updated, finalTable := cleaned, nullableVars := nullable,
      hasUnit := true, s0WasRemoved := prot.1, processedVars := processedVars }

/-- Grammar record threaded to the following stages: the stage rewrites
`grammar.startSymbol` to `S0` and replaces `grammar.productions` with
its final table. -/
def removeEpsAndUnitGrammar (g : Grammar) (cnfGraph : Table) : Grammar :=
  { g with startSymbol := "S0",
           productions := (removeEpsAndUnitRun g cnfGraph).finalTable }

end KG

namespace KG

/-! ### Fresh-variable allocators (step_4 and the binary stage) -/

/-- The candidate pool `'ZYXWVUTSRQPONMLKJIHGFEDCBA'.split('')`. -/
def letterCandidates : List String :=
  "ZYXWVUTSRQPONMLKJIHGFEDCBA".data.map (fun c => String.mk [c])

/-- Decimal digit list of a natural number, most significant first,
with fuel (the embedding of the JS number-to-string coercion in
`'D' + counter`). -/
def decAux : Nat → Nat → List Char
  | 0, _ => []
  | Nat.succ f, n =>
    if n < 10 then [Nat.digitChar n]
    else decAux f (n / 10) ++ [Nat.digitChar (n % 10)]

/-- Decimal rendering of a natural number. -/
def decRepr (n : Nat) : List Char := decAux (n + 1) n

/-- The fallback name `D0`, `D1`, ... used by the binary stage's
allocator. -/
def dName (c : Nat) : String := String.mk ('D' :: decRepr c)

/-- The `while (usedVars.has('D'+counter)) counter++` loop, fuelled. -/
def dLoop (used : List String) : Nat → Nat → String
  | 0, c => dName c
  | Nat.succ f, c => if dName c ∈ used then dLoop used f (c + 1) else dName c

/-- Mirrors `allocateNewVariable` of the binary-cascading stage
(part of `step_5_binaereAufspaltung.js`): first unused letter from `Z`
down to `A`, then `D0`, `D1`, ... until unused. -/
def allocateNewVariable6 (used : List String) : String :=
  match letterCandidates.find? (fun c => ¬ c ∈ used) with
  | some c => c
  | none => dLoop used (used.length + 1) 0

/-- Mirrors `allocateNewVariable` of `step_4_isolateLongProductions.js`:
first unused letter from `Z` down to `A`, and the hard-coded fallback
`'Z'` when every letter is taken. -/
def allocateNewVariable4 (used : List String) : String :=
  match letterCandidates.find? (fun c => ¬ c ∈ used) with
  | some c => c
  | none => "Z"

/-! ### step_4_isolateLongProductions.js -/

/-- Mirrors `buildExistingTerminalMap`: first `V -> a` rule wins, the
start symbol is skipped. -/
def buildExistingTerminalMap (productions : Table) (startSymbol : String) :
    List (String × String) :=
  (tableKeys productions).foldl
    (fun m V =>
      if V = startSymbol then m
      else
        (tableLookup productions V).foldl
          (fun m p =>
            if p.length = 1 ∧ isTerminalS p ∧ ¬ (m.map Prod.fst).contains p then
              m ++ [(p, V)]
            else m)
          m)
    []

/-- Working state of the terminal isolator: production table, used-name
set, terminal-to-helper map. -/
structure IsoState where
  tbl : Table
  used : List String
  map : List (String × String)
deriving Repr, DecidableEq

/-- Mirrors `getOrCreateTerminalVar`. -/
def getOrCreateTerminalVar (st : IsoState) (t : String) : IsoState × String :=
  match st.map.find? (fun p => p.1 = t) with
  | some p => (st, p.2)
  | none =>
    let newVar := allocateNewVariable4 st.used
    let used := listAdd st.used newVar
    let slot := tableLookup st.tbl newVar
    let slot := if slot.contains t then slot else slot ++ [t]
    let tbl :=
      if newVar ∈ tableKeys st.tbl then tableSet st.tbl newVar slot
      else st.tbl ++ [(newVar, slot)]
    ({ tbl := tbl, used := used, map := st.map ++ [(t, newVar)] }, newVar)

/-- Inner position loop of the isolator for one production: replace
each terminal occurrence with its helper variable, updating the table
slot at index `i` after every replacement. -/
def isolatePositions (A : String) (i : Nat) :
    List Nat → IsoState → String → List String → IsoState
  | [], st, _, _ => st
  | pos :: rest, st, p, symbols =>
    let s := symbols.getD pos ""
    if ¬ isTerminalS s then isolatePositions A i rest st p symbols
    else
      let (st, vt) := getOrCreateTerminalVar st s
      let newSymbols := symbols.set pos vt
      let newProd := String.join newSymbols
      if newProd = p then isolatePositions A i rest st p symbols
      else
        let st := { st with tbl := tableSet st.tbl A ((tableLookup st.tbl A).set i newProd) }
        isolatePositions A i rest st newProd newSymbols

/-- Per-production body of the isolator loop. -/
def isolateProdAt (A : String) (st : IsoState) (i : Nat) : IsoState :=
  let p := (tableLookup st.tbl A).getD i ""
  if isEpsilonS p ∨ p.length < 2 then st
  else
    let symbols := psCore p
    isolatePositions A i (List.range symbols.length) st p symbols

/-- Table part of `generateIsolateLongSteps`. -/
def isolateLongRun (g : Grammar) (cnfGraph : Table) : Table :=
  let startSymbol := if g.startSymbol = "" then "S" else g.startSymbol
  let productions := if cnfGraph.length > 0 then cnfGraph else g.productions
  let used :=
    (tableKeys g.productions ++ tableKeys productions).foldl listAdd []
  let map := buildExistingTerminalMap productions startSymbol
  let sortedVars := sortStrs (tableKeys productions)
  let st : IsoState := { tbl := productions, used := used, map := map }
  (sortedVars.foldl
    (fun st A =>
      (List.range (tableLookup st.tbl A).length).foldl (isolateProdAt A) st)
    st).tbl

end KG

namespace KG

/-! ### step_5_binaereAufspaltung.js (part_006) -/

/-- The `parseSymbols` copy of the binary stage, whose epsilon marker is
`'ε'` (imported from `parseGrammar.js`). -/
def psBin (p : String) : List String :=
  if isEpsilonS p then ["ε"] else psCore p

/-- Working state of the binary cascader: production table, used-name
set, and the body-keyed helper cache `productionToCascadeVars`. -/
structure CascState where
  tbl : Table
  used : List String
  cache : List (String × List String)
deriving Repr, DecidableEq

/-- Allocates `m - 2` helper variables in sequence. -/
def allocHelpers (used : List String) : Nat → List String × List String
  | 0 => ([], used)
  | Nat.succ k =>
    let v := allocateNewVariable6 used
    let used := listAdd used v
    let (rest, used) := allocHelpers used k
    (v :: rest, used)

/-- Appends `rule` to the helper variable's slot, creating it when
missing (`if (!current[h]) current[h] = []; current[h].push(rule)`). -/
def pushRule (tbl : Table) (h rule : String) : Table :=
  if h ∈ tableKeys tbl then tableSet tbl h (tableLookup tbl h ++ [rule])
  else tbl ++ [(h, [rule])]

/-- Body of the cascade for one original production index `i` of
variable `A`.  Faithfully reproduces the source, including the stale
reads: `prods` is the rule array captured at loop entry, and the
deletion filters the *current* array by the original index `i`. -/
def cascadeProdAt (A : String) (origProds : List String) (st : CascState) (i : Nat) :
    CascState :=
  let prod := origProds.getD i ""
  if isEpsilonS prod then st
  else
    let symbols := psBin prod
    let m := symbols.length
    if m ≥ 3 then
      let isNew := ¬ (st.cache.map Prod.fst).contains prod
      let (helpers, used, cache) :=
        if isNew then
          let (hs, used) := allocHelpers st.used (m - 2)
          (hs, used, st.cache ++ [(prod, hs)])
        else
          (match st.cache.find? (fun p => p.1 = prod) with
           | some p => p.2
           | none => [], st.used, st.cache)
      let tbl := tableSet st.tbl A (filterIdx (tableLookup st.tbl A) (fun idx => ¬ idx = i))
      let firstRule := symbols.getD 0 "" ++ helpers.getD 0 ""
      let tbl := tableSet tbl A (tableLookup tbl A ++ [firstRule])
      let tbl :=
        if isNew then
          let tbl :=
            (List.range (m - 3)).foldl
              (fun tbl j =>
                pushRule tbl (helpers.getD j "")
                  (symbols.getD (j + 1) "" ++ helpers.getD (j + 1) ""))
              tbl
          pushRule tbl (helpers.getD (m - 3) "")
            (symbols.getD (m - 2) "" ++ symbols.getD (m - 1) "")
        else tbl
      { tbl := tbl, used := used, cache := cache }
    else st

/-- Table part of `generateBinaryKaskadierungSteps` before the cycle
check. -/
def binaryCascadeRun (g : Grammar) (cnfGraph : Table) : Table :=
  let productions := if cnfGraph.length > 0 then cnfGraph else g.productions
  let used := (tableKeys g.productions ++ tableKeys productions).foldl listAdd []
  let sortedVars := sortStrs (tableKeys productions)
  let st : CascState := { tbl := productions, used := used, cache := [] }
  (sortedVars.foldl
    (fun st A =>
      let origProds := tableLookup st.tbl A
      (List.range origProds.length).foldl (cascadeProdAt A origProds) st)
    st).tbl

/-! ### detectCycleWithSteps (part_006) -/

/-- Dependency graph of `detectCycleWithSteps`: an edge `A -> B` for
every nonterminal `B` (that is itself a table key) occurring in a
production body of `A`. -/
def buildDepGraph (productions : Table) : List (String × List String) :=
  let nodes := tableKeys productions
  nodes.map
    (fun A =>
      (A,
        (tableLookup productions A).foldl
          (fun acc prod =>
            (psBin prod).foldl
              (fun acc sym =>
                if isNonTerminalS sym ∧ nodes.contains sym ∧ ¬ acc.contains sym then
                  acc ++ [sym]
                else acc)
              acc)
          []))

/-- Depth-first search of `detectCycleWithSteps`: neighbours in sorted
order, a recursion stack passed downward, the visited set threaded
through; `none` signals a detected cycle. -/
def dfsVisit (graph : List (String × List String)) :
    Nat → String → List String → List String → Option (List String)
  | 0, _, visited, _ => some visited
  | Nat.succ f, node, visited, stack =>
    let visited := listAdd visited node
    let stack := listAdd stack node
    (sortStrs (closureLookup graph node)).foldl
      (fun (st : Option (List String)) nb =>
        match st with
        | none => none
        | some vis =>
          if ¬ nb ∈ vis then dfsVisit graph f nb vis stack
          else if nb ∈ stack then none
          else some vis)
      (some visited)

/-- The `hasCycle` result of `detectCycleWithSteps`. -/
def detectCycle (productions : Table) : Bool :=
  let graph := buildDepGraph productions
  let nodes := sortStrs (tableKeys productions)
  let res :=
    nodes.foldl
      (fun (st : Option (List String)) v =>
        match st with
        | none => none
        | some visited =>
          if ¬ v ∈ visited then dfsVisit graph (nodes.length + 1) v visited []
          else some visited)
      (some [])
  match res with
  | none => true
  | some _ => false

end KG

namespace KG

/-! ### generateIsProductiveSteps (step_1) : data and emitted stages -/

/-- Phase-2 validity test of `generateIsProductiveSteps`: every parsed
symbol is a terminal, epsilon, or a productive variable. -/
def isValidProd1 (prod : String) (productiveSet : List String) : Bool :=
  (psCore prod).all
    (fun sym => isTerminalS sym || isEpsilonS sym || productiveSet.contains sym)

/-- Result data of the productivity/reachability stage. -/
structure Stage1Result where
  productiveSet : List String
  productiveProductions : Table
  reachableSet : List String
  finalProductiveSet : List String
  isEmptyLanguage : Bool
deriving Repr, DecidableEq

/-- Data part of `generateIsProductiveSteps`: the same fixpoint as
`computeIsProductive` (over the epsilon-filtered nonterminal list),
the filtered table, reachability over it, and the emptiness flag of
`addResultStep`. -/
def stage1Run (g : Grammar) : Stage1Result :=
  let startSymbol := if g.startSymbol = "" then "S" else g.startSymbol
  let filtered := g.nonTerminals.filter (fun nt => ¬ isEpsilonS nt)
  let S0 := productiveInit filtered g.productions
  let S := productiveLoop filtered g.productions (filtered.length + 1) S0
  let productiveProductions :=
    S.foldl
      (fun tbl v =>
        let valid := (tableLookup g.productions v).filter (fun p => isValidProd1 p S)
        if valid.length > 0 then tbl ++ [(v, valid)] else tbl)
      []
  let reach := getReachableVariables productiveProductions startSymbol
  let finalSet := S.filter (fun v => reach.contains v)
  { productiveSet := S, productiveProductions := productiveProductions,
    reachableSet := reach, finalProductiveSet := finalSet,
    isEmptyLanguage := ! finalSet.contains startSymbol }

/-- Stage tags of the steps emitted by `generateIsProductiveSteps`, in
push order (ids dropped, conditional pushes preserved). -/
def stage1Stages (g : Grammar) : List String :=
  let r := stage1Run g
  let filtered := g.nonTerminals.filter (fun nt => ¬ isEpsilonS nt)
  let initTags :=
    filtered.foldl
      (fun tags v =>
        if checkForTerminalProduction (tableLookup g.productions v) then
          tags ++ ["initialization"]
        else tags)
      []
  let anyUnchecked :=
    filtered.any (fun v => ¬ checkForTerminalProduction (tableLookup g.productions v))
  let iterTags := ["iteration"]
  let removed :=
    r.productiveSet.any
      (fun v => (tableLookup g.productions v).any (fun p => ¬ isValidProd1 p r.productiveSet))
  let anyUnreach := r.productiveSet.any (fun v => ¬ r.reachableSet.contains v)
  ["initialization"] ++ initTags ++
    (if anyUnchecked then ["initialization"] else []) ++
    iterTags ++
    (if removed then ["productive-filter"] else []) ++
    (if anyUnreach then ["reachability", "reachability", "reachability"]
     else ["reachability"]) ++
    ["result"]

/-! ### buildAllSteps (SidebarLeft.jsx) : the full pipeline -/

/-- Aggregate outcome of `buildAllSteps`: the tables handed from stage
to stage, the final cascaded table, and the two reported flags. -/
structure PipelineResult where
  stage1 : Stage1Result
  baseCNF : Table
  afterUnit : Table
  afterLong : Table
  finalTable : Table
  isInfinite : Bool
deriving Repr, DecidableEq

/-- Embedding of `buildAllSteps`: every stage is invoked
unconditionally, each consuming the previous stage's last `cnfGraph`
(`getLastCnfGraph`); stage 3 rewrites the grammar's start symbol and
production table in place before stages 4 and 5 read them. -/
def buildAllStepsRun (g : Grammar) : PipelineResult :=
  let s1 := stage1Run g
  let baseCNF := buildBaseCNF g s1.finalProductiveSet
  let epsRes := removeEpsAndUnitRun g baseCNF
  let g' := { g with startSymbol := "S0", productions := epsRes.finalTable }
  let afterLong := isolateLongRun g' epsRes.finalTable
  let finalTable := binaryCascadeRun g' afterLong
  { stage1 := s1, baseCNF := baseCNF, afterUnit := epsRes.finalTable,
    afterLong := afterLong, finalTable := finalTable,
    isInfinite := detectCycle finalTable }

/-- Stage tags of the steps emitted by `generateRemoveEpsilonSteps`. -/
def epsUnitStages (g : Grammar) (cnfGraph : Table) : List String :=
  let r := removeEpsAndUnitRun g cnfGraph
  ["cnf-eps"] ++
    (if r.nullableVars.length > 0 then
      ["cnf-eps"] ++ r.nullableVars.map (fun _ => "cnf-eps") ++ ["cnf-eps"]
     else []) ++
    ["cnf-eps"] ++
    (if r.hasUnit then
      ["cnf-unit"] ++ r.processedVars.map (fun _ => "cnf-unit") ++
        (if r.s0WasRemoved then ["cnf-unit"] else []) ++ ["cnf-unit"]
     else [])

/-- Stage tags of the full trace concatenated by `buildAllSteps`; the
stage-2, stage-4 and stage-5 generators open with an unconditional
`init` push and close with an unconditional `complete`/result push, so
two tags stand in for each of their per-variable step runs. -/
def buildAllStepsStages (g : Grammar) : List String :=
  let s1 := stage1Run g
  let baseCNF := buildBaseCNF g s1.finalProductiveSet
  stage1Stages g ++ ["cnf-build", "cnf-build"] ++
    epsUnitStages g baseCNF ++ ["cnf-long", "cnf-long"] ++
    ["cnf-binary", "cnf-binary", "cnf-binary"]

end KG

namespace KG

/-! ### Derivation semantics

A sentential form is a list of parsed symbols.  One rewriting step
replaces an occurrence of a symbol `A` by the body of one of `A`'s
productions, where the body of the epsilon production is the empty
list — exactly the reading under which `step_1_searchProductive.js`
treats `'ε'` as deriving the empty word. -/

/-- Symbol list contributed by a production body: empty for the epsilon
production, the parsed symbols otherwise. -/
def bodySymbols (prod : String) : List String :=
  if isEpsilonS prod then [] else psCore prod

/-- Single derivation step over a production table. -/
inductive Rew (t : Table) : List String → List String → Prop
  | step (u v : List String) (A prod : String) (hm : prod ∈ tableLookup t A) :
      Rew t (u ++ A :: v) (u ++ bodySymbols prod ++ v)

/-- Finitely many derivation steps. -/
def RewStar (t : Table) : List String → List String → Prop :=
  Relation.ReflTransGen (Rew t)

/-- A word: every symbol is a single lowercase terminal. -/
def terminalOnly (w : List String) : Prop := ∀ s ∈ w, isTerminalS s = true

/-- A symbol can derive some terminal-only word: it owns a production
all of whose non-terminal body symbols can in turn do so. -/
inductive ProductiveNT (t : Table) : String → Prop
  | mk (A prod : String) (hm : prod ∈ tableLookup t A)
      (h : ∀ s ∈ bodySymbols prod, isTerminalS s = false → ProductiveNT t s) :
      ProductiveNT t A

/-! ### Derived definitions used by the theorems -/

/-- Generic fold underlying `productiveInit`, for induction. -/
def initFold (tbl : Table) (l : List String) (S : List String) : List String :=
  l.foldl
    (fun S v =>
      if isEpsilonS v then S
      else if checkForTerminalProduction (tableLookup tbl v) then listAdd S v
      else S)
    S

/-- The fixpoint the stage computes: loop from the initial set with the
standard fuel. -/
def productiveFix (nts : List String) (tbl : Table) : List String :=
  productiveLoop nts tbl (nts.length + 1) (productiveInit nts tbl)

/-- Digit value, the left inverse of `Nat.digitChar` below 10. -/
def charVal (c : Char) : Nat := c.toNat - 48

/-- Numeric value of a digit string, most significant first. -/
def unRepr (cs : List Char) : Nat := cs.foldl (fun a c => 10 * a + charVal c) 0

/-! ### Heap model of the epsilon-stage snapshots

The stage's emitted steps record `cnfGraph: { ...updated }` — a shallow
object spread.  The spread copies the name-to-array bindings but the
arrays themselves are shared, and later rounds mutate them in place
with `updated[A].push(rule)` (only the `filter` reassignment allocates
a fresh array).  The model makes the references explicit: a heap of
production arrays, a reference table binding each name to a cell. -/

/-- Reference table: name-to-cell bindings (a JS object whose values
are array references). -/
abbrev RefTable := List (String × Nat)

def heapRead (heap : List (List String)) (r : Nat) : List String := heap.getD r []

def heapWrite (heap : List (List String)) (r : Nat) (v : List String) :
    List (List String) := heap.set r v

def heapAlloc (heap : List (List String)) (v : List String) :
    List (List String) × Nat := (heap ++ [v], heap.length)

def refLookup (rt : RefTable) (k : String) : Option Nat :=
  (rt.find? (fun p => p.1 = k)).map Prod.snd

def refSet (rt : RefTable) (k : String) (r : Nat) : RefTable :=
  match rt with
  | [] => [(k, r)]
  | (k', r') :: rest =>
    if k' = k then (k, r) :: rest else (k', r') :: refSet rest k r

/-- Reads a reference table through the heap into a plain table (what a
consumer of the snapshot sees at a given moment). -/
def materialize (heap : List (List String)) (rt : RefTable) : Table :=
  rt.map (fun p => (p.1, heapRead heap p.2))

/-- One elimination round on the heap: the added rules are computed
from the current state exactly as in `eliminateEpsVar`, the pushes
mutate the shared cells in place, and the final `filter` reassignment
allocates a fresh cell for the eliminated variable only. -/
def storeElimEps (heap : List (List String)) (rt : RefTable) (epsVar : String) :
    List (List String) × RefTable :=
  let rulesToAdd := epsRulesToAdd (materialize heap rt) epsVar
  let heap :=
    rulesToAdd.foldl
      (fun heap (p : String × List String) =>
        match refLookup rt p.1 with
        | none => heap
        | some r =>
          heapWrite heap r
            (p.2.foldl
              (fun cur rule =>
                if ¬ rule = "" ∧ ¬ rule = "eps" ∧ ¬ cur.contains rule then cur ++ [rule]
                else cur)
              (heapRead heap r)))
      heap
  match refLookup rt epsVar with
  | none => (heap, rt)
  | some r =>
    let alloc := heapAlloc heap ((heapRead heap r).filter (fun p => ¬ p = "eps"))
    (alloc.1, refSet rt epsVar alloc.2)

/-- One emitted step's snapshot: the spread-copied reference table and
the production table it showed at emission time. -/
structure SnapEvent where
  snapRefs : RefTable
  atEmission : Table
deriving Repr, DecidableEq

/-- The elimination loop of `generateRemoveEpsilonSteps` over the heap,
recording after every round the snapshot attached to that round's step
(`cnfGraph: { ...updated }`) together with its materialization at
emission time. -/
def storeEpsRun (tbl : Table) (newStart : String) :
    List (List String) × RefTable × List SnapEvent :=
  let heap := tbl.map Prod.snd
  let rt : RefTable := tbl.enum.map (fun p => (p.2.1, p.1))
  let nullable := findNullableVars tbl newStart
  nullable.foldl
    (fun (st : List (List String) × RefTable × List SnapEvent) epsVar =>
      let next := storeElimEps st.1 st.2.1 epsVar
      let snap := next.2
      (next.1, next.2,
        st.2.2 ++ [{ snapRefs := snap, atEmission := materialize next.1 snap }]))
    (heap, rt, [])

/-- Counterexample grammar for the finiteness check: the unit chain
`A -> C -> D` loses `D`'s productions for `A` during unit elimination,
so the final dependency graph is acyclic although the input language is
infinite. -/
def g2Text : String := "S -> cA | d\nA -> C\nC -> D\nD -> aA | b"

theorem rew_context (t : Table) (u v : List String) {a b : List String}
    (h : Rew t a b) : Rew t (u ++ a ++ v) (u ++ b ++ v) := by
  rcases h with ⟨u', v', A, prod, hm⟩
  have h1 : u ++ (u' ++ A :: v') ++ v = (u ++ u') ++ A :: (v' ++ v) := by simp
  have h2 : u ++ (u' ++ bodySymbols prod ++ v') ++ v
      = (u ++ u') ++ bodySymbols prod ++ (v' ++ v) := by simp
  rw [h1, h2]
  exact Rew.step (u ++ u') (v' ++ v) A prod hm

theorem rewStar_context (t : Table) (u v : List String) {a b : List String}
    (h : RewStar t a b) : RewStar t (u ++ a ++ v) (u ++ b ++ v) := by
  induction h with
  | refl => exact Relation.ReflTransGen.refl
  | tail _ hstep ih => exact Relation.ReflTransGen.tail ih (rew_context t u v hstep)

theorem rewStar_append (t : Table) {a b c d : List String}
    (h1 : RewStar t a c) (h2 : RewStar t b d) : RewStar t (a ++ b) (c ++ d) := by
  have s1 : RewStar t (a ++ b) (c ++ b) := by
    have := rewStar_context t [] b h1
    simpa using this
  have s2 : RewStar t (c ++ b) (c ++ d) := by
    have := rewStar_context t c [] h2
    simpa using this
  exact Relation.ReflTransGen.trans s1 s2

theorem derive_of_list (t : Table) (bs : List String)
    (h : ∀ s ∈ bs, isTerminalS s = true ∨ ∃ w, RewStar t [s] w ∧ terminalOnly w) :
    ∃ w, RewStar t bs w ∧ terminalOnly w := by
  induction bs with
  | nil => exact ⟨[], Relation.ReflTransGen.refl, fun s hs => absurd hs (List.not_mem_nil s)⟩
  | cons s rest ih =>
    obtain ⟨wr, hwr, hwrT⟩ := ih (fun x hx => h x (List.mem_cons_of_mem s hx))
    rcases h s (List.mem_cons_self s rest) with hterm | ⟨ws, hws, hwsT⟩
    · refine ⟨s :: wr, ?_, ?_⟩
      · have := rewStar_append t (a := [s]) (b := rest) (c := [s]) (d := wr)
          Relation.ReflTransGen.refl hwr
        simpa using this
      · intro x hx
        rcases List.mem_cons.mp hx with rfl | hx
        · exact hterm
        · exact hwrT x hx
    · refine ⟨ws ++ wr, ?_, ?_⟩
      · have := rewStar_append t hws hwr
        simpa using this
      · intro x hx
        rcases List.mem_append.mp hx with hx | hx
        · exact hwsT x hx
        · exact hwrT x hx

theorem productive_derives (t : Table) (A : String) (h : ProductiveNT t A) :
    ∃ w, RewStar t [A] w ∧ terminalOnly w := by
  induction h with
  | mk A prod hm _ ih =>
    have hbody : ∃ w, RewStar t (bodySymbols prod) w ∧ terminalOnly w := by
      apply derive_of_list
      intro s hs
      by_cases hterm : isTerminalS s = true
      · exact Or.inl hterm
      · exact Or.inr (ih s hs (Bool.eq_false_iff.mpr hterm))
    obtain ⟨w, hw, hwT⟩ := hbody
    refine ⟨w, ?_, hwT⟩
    have hstep : Rew t [A] (bodySymbols prod) := by
      have := Rew.step (t := t) [] [] A prod hm
      simpa using this
    exact Relation.ReflTransGen.trans (Relation.ReflTransGen.single hstep) hw

theorem derives_productive (t : Table) {form w : List String}
    (h : RewStar t form w) (hw : terminalOnly w) :
    ∀ s ∈ form, isTerminalS s = true ∨ ProductiveNT t s := by
  induction h using Relation.ReflTransGen.head_induction_on with
  | refl => exact fun s hs => Or.inl (hw s hs)
  | head hstep _ ih =>
    rcases hstep with ⟨u, v, A, prod, hm⟩
    intro s hs
    rcases List.mem_append.mp hs with hsu | hsv
    · refine ih s ?_
      simp only [List.append_assoc, List.mem_append]
      exact Or.inl hsu
    · rcases List.mem_cons.mp hsv with rfl | hsv
      · refine Or.inr (ProductiveNT.mk s prod hm ?_)
        intro x hx hxterm
        have hxmem : x ∈ u ++ bodySymbols prod ++ v := by
          simp only [List.append_assoc, List.mem_append]
          exact Or.inr (Or.inl hx)
        rcases ih x hxmem with hterm | hprod
        · rw [hxterm] at hterm; exact absurd hterm (by simp)
        · exact hprod
      · refine ih s ?_
        simp only [List.append_assoc, List.mem_append]
        exact Or.inr (Or.inr hsv)

/-- A non-terminal symbol is productive exactly when it derives a
terminal word. -/
theorem productive_iff_derives (t : Table) (A : String)
    (hA : isTerminalS A = false) :
    ProductiveNT t A ↔ ∃ w, RewStar t [A] w ∧ terminalOnly w := by
  constructor
  · exact productive_derives t A
  · rintro ⟨w, hw, hwT⟩
    have := derives_productive t hw hwT A (List.mem_singleton.mpr rfl)
    rcases this with hterm | hprod
    · rw [hA] at hterm; exact absurd hterm (by simp)
    · exact hprod

end KG

namespace KG

/-! ### Fixpoint analysis of the productivity computation -/

theorem listAdd_subset (S : List String) (v : String) : S ⊆ listAdd S v := by
  unfold listAdd; split
  · exact fun x hx => hx
  · exact fun x hx => List.mem_append.mpr (Or.inl hx)

theorem mem_listAdd (S : List String) (v x : String) (h : x ∈ listAdd S v) :
    x ∈ S ∨ x = v := by
  unfold listAdd at h; split at h
  · exact Or.inl h
  · rcases List.mem_append.mp h with hx | hx
    · exact Or.inl hx
    · exact Or.inr (List.mem_singleton.mp hx)

theorem listAdd_nodup (S : List String) (v : String) (h : S.Nodup) :
    (listAdd S v).Nodup := by
  unfold listAdd; split
  · exact h
  · next hv =>
    refine List.Nodup.append h (List.nodup_singleton v) ?_
    intro a ha hav
    exact hv (List.mem_singleton.mp hav ▸ ha)

theorem isProductiveProd_mono {p : String} {S S' : List String}
    (hss : ∀ x ∈ S, x ∈ S') (h : isProductiveProd p S = true) :
    isProductiveProd p S' = true := by
  unfold isProductiveProd at h ⊢
  by_cases heps : isEpsilonS p = true
  · rw [if_pos heps]
  · rw [if_neg heps] at h ⊢
    rw [List.all_eq_true] at h ⊢
    intro s hs
    rcases Bool.or_eq_true_iff.mp (h s hs) with ht | hc
    · exact Bool.or_eq_true_iff.mpr (Or.inl ht)
    · refine Bool.or_eq_true_iff.mpr (Or.inr ?_)
      rw [List.elem_iff] at hc ⊢
      exact hss s hc

theorem checkProductive_mono {prods : List String} {S S' : List String}
    (hss : ∀ x ∈ S, x ∈ S') (h : checkForProductiveProduction prods S = true) :
    checkForProductiveProduction prods S' = true := by
  unfold checkForProductiveProduction at h ⊢
  rw [List.any_eq_true] at h ⊢
  obtain ⟨p, hp, hps⟩ := h
  exact ⟨p, hp, isProductiveProd_mono hss hps⟩

/-- Shape of the fold body of `productivePass`. -/
theorem productivePass_cons (v : String) (nts : List String) (tbl : Table)
    (S : List String) :
    productivePass (v :: nts) tbl S =
      productivePass nts tbl
        (if isEpsilonS v ∨ v ∈ S then S
         else if checkForProductiveProduction (tableLookup tbl v) S then S ++ [v]
         else S) := by
  rfl

theorem productivePass_subset (nts : List String) (tbl : Table) :
    ∀ S : List String, S ⊆ productivePass nts tbl S := by
  induction nts with
  | nil => exact fun S x hx => hx
  | cons v nts ih =>
    intro S
    rw [productivePass_cons]
    split
    · exact ih S
    · split
      · exact fun x hx =>
          ih (S ++ [v]) (List.mem_append.mpr (Or.inl hx))
      · exact ih S

theorem productivePass_mem (nts : List String) (tbl : Table) :
    ∀ S : List String, ∀ x ∈ productivePass nts tbl S, x ∈ S ∨ x ∈ nts := by
  induction nts with
  | nil => exact fun S x hx => Or.inl hx
  | cons v nts ih =>
    intro S x hx
    rw [productivePass_cons] at hx
    split at hx
    · rcases ih S x hx with h | h
      · exact Or.inl h
      · exact Or.inr (List.mem_cons_of_mem v h)
    · split at hx
      · rcases ih (S ++ [v]) x hx with h | h
        · rcases List.mem_append.mp h with h | h
          · exact Or.inl h
          · exact Or.inr (List.mem_cons.mpr (Or.inl (List.mem_singleton.mp h)))
        · exact Or.inr (List.mem_cons_of_mem v h)
      · rcases ih S x hx with h | h
        · exact Or.inl h
        · exact Or.inr (List.mem_cons_of_mem v h)

theorem productivePass_nodup (nts : List String) (tbl : Table) :
    ∀ S : List String, S.Nodup → (productivePass nts tbl S).Nodup := by
  induction nts with
  | nil => exact fun S h => h
  | cons v nts ih =>
    intro S hS
    rw [productivePass_cons]
    split
    · exact ih S hS
    · next hcond =>
      split
      · refine ih (S ++ [v]) ?_
        have hv : ¬ v ∈ S := fun hv => hcond (Or.inr hv)
        refine List.Nodup.append hS (List.nodup_singleton v) ?_
        intro a ha hav
        exact hv (List.mem_singleton.mp hav ▸ ha)
      · exact ih S hS

theorem productivePass_sound (nts : List String) (tbl : Table) :
    ∀ S : List String, (∀ x ∈ S, ProductiveNT tbl x) →
      ∀ x ∈ productivePass nts tbl S, ProductiveNT tbl x := by
  induction nts with
  | nil => exact fun S h => h
  | cons v nts ih =>
    intro S hS
    rw [productivePass_cons]
    split
    · exact ih S hS
    · split
      · next hcheck =>
        refine ih (S ++ [v]) ?_
        intro x hx
        rcases List.mem_append.mp hx with hx | hx
        · exact hS x hx
        · rw [List.mem_singleton.mp hx]
          unfold checkForProductiveProduction at hcheck
          rw [List.any_eq_true] at hcheck
          obtain ⟨prod, hprod, hps⟩ := hcheck
          refine ProductiveNT.mk v prod hprod ?_
          intro s hs hsterm
          unfold bodySymbols at hs
          unfold isProductiveProd at hps
          split at hs
          · exact absurd hs (List.not_mem_nil s)
          · next heps =>
            rw [if_neg heps, List.all_eq_true] at hps
            rcases Bool.or_eq_true_iff.mp (hps s hs) with ht | hc
            · rw [hsterm] at ht; exact absurd ht (by simp)
            · rw [List.elem_iff] at hc
              exact hS s hc
      · exact ih S hS

theorem productivePass_complete (nts : List String) (tbl : Table) :
    ∀ S : List String, ∀ v ∈ nts, isEpsilonS v = false →
      checkForProductiveProduction (tableLookup tbl v) S = true →
      v ∈ productivePass nts tbl S := by
  induction nts with
  | nil => intro S v hv; exact absurd hv (List.not_mem_nil v)
  | cons u nts ih =>
    intro S v hv heps hcheck
    rw [productivePass_cons]
    rcases List.mem_cons.mp hv with rfl | hv
    · have hvin : v ∈ (if isEpsilonS v = true ∨ v ∈ S then S
        else if checkForProductiveProduction (tableLookup tbl v) S then S ++ [v]
        else S) := by
        by_cases hvS : v ∈ S
        · rw [if_pos (Or.inr hvS)]; exact hvS
        · have hcond : ¬ (isEpsilonS v = true ∨ v ∈ S) := by
            rintro (h | h)
            · rw [heps] at h; exact absurd h (by simp)
            · exact hvS h
          rw [if_neg hcond, if_pos hcheck]
          exact List.mem_append.mpr (Or.inr (List.mem_singleton.mpr rfl))
      exact productivePass_subset nts tbl _ hvin
    · refine ih _ v hv heps (checkProductive_mono ?_ hcheck)
      intro x hx
      split
      · exact hx
      · split
        · exact List.mem_append.mpr (Or.inl hx)
        · exact hx

end KG

namespace KG

theorem productivePass_eq_append (nts : List String) (tbl : Table) :
    ∀ S : List String, ∃ ext, productivePass nts tbl S = S ++ ext := by
  induction nts with
  | nil => exact fun S => ⟨[], by simp [productivePass]⟩
  | cons v nts ih =>
    intro S
    rw [productivePass_cons]
    split
    · exact ih S
    · split
      · obtain ⟨ext, hext⟩ := ih (S ++ [v])
        exact ⟨v :: ext, by simpa using hext⟩
      · exact ih S

theorem productiveLoop_subset (nts : List String) (tbl : Table) :
    ∀ (f : Nat) (S : List String), S ⊆ productiveLoop nts tbl f S := by
  intro f
  induction f with
  | zero => exact fun S x hx => hx
  | succ f ih =>
    intro S
    unfold productiveLoop
    split
    · exact fun x hx => hx
    · exact fun x hx => ih _ (productivePass_subset nts tbl S hx)

theorem productiveLoop_sound (nts : List String) (tbl : Table) :
    ∀ (f : Nat) (S : List String), (∀ x ∈ S, ProductiveNT tbl x) →
      ∀ x ∈ productiveLoop nts tbl f S, ProductiveNT tbl x := by
  intro f
  induction f with
  | zero => exact fun S h => h
  | succ f ih =>
    intro S hS
    unfold productiveLoop
    split
    · exact hS
    · exact ih _ (productivePass_sound nts tbl S hS)

theorem nodup_subset_length {S l : List String} (hnd : S.Nodup)
    (hsub : ∀ x ∈ S, x ∈ l) : S.length ≤ l.dedup.length := by
  have h1 : S.toFinset.card = S.length := List.toFinset_card_of_nodup hnd
  have h2 : S.toFinset ⊆ l.toFinset := by
    intro a ha
    rw [List.mem_toFinset] at ha ⊢
    exact hsub a ha
  have h3 : l.toFinset.card = l.dedup.length := List.card_toFinset l
  calc S.length = S.toFinset.card := h1.symm
    _ ≤ l.toFinset.card := Finset.card_le_card h2
    _ = l.dedup.length := h3

theorem productiveLoop_stable (nts : List String) (tbl : Table) :
    ∀ (f : Nat) (S : List String), S.Nodup → (∀ x ∈ S, x ∈ nts) →
      nts.dedup.length < f + S.length →
      productivePass nts tbl (productiveLoop nts tbl f S) = productiveLoop nts tbl f S := by
  intro f
  induction f with
  | zero =>
    intro S hnd hsub hlt
    exact absurd hlt (by simpa using nodup_subset_length hnd hsub)
  | succ f ih =>
    intro S hnd hsub hlt
    unfold productiveLoop
    split
    · next heq => exact heq
    · next hne =>
      refine ih _ (productivePass_nodup nts tbl S hnd) ?_ ?_
      · intro x hx
        rcases productivePass_mem nts tbl S x hx with h | h
        · exact hsub x h
        · exact h
      · obtain ⟨ext, hext⟩ := productivePass_eq_append nts tbl S
        have hextne : ext ≠ [] := by
          intro h; rw [h] at hext; simp at hext; exact hne hext
        have : S.length + 1 ≤ (productivePass nts tbl S).length := by
          rw [hext, List.length_append]
          have : 1 ≤ ext.length := by
            cases ext with
            | nil => exact absurd rfl hextne
            | cons a l => simp
          omega
        omega

theorem productiveInit_eq_initFold (nts : List String) (tbl : Table) :
    productiveInit nts tbl = initFold tbl nts [] := rfl

theorem initFold_cons (tbl : Table) (v : String) (l : List String) (S : List String) :
    initFold tbl (v :: l) S =
      initFold tbl l
        (if isEpsilonS v then S
         else if checkForTerminalProduction (tableLookup tbl v) then listAdd S v
         else S) := rfl

theorem initFold_mem (tbl : Table) (l : List String) :
    ∀ S : List String, ∀ x ∈ initFold tbl l S, x ∈ S ∨ x ∈ l := by
  induction l with
  | nil => exact fun S x hx => Or.inl hx
  | cons v l ih =>
    intro S x hx
    rw [initFold_cons] at hx
    have step : ∀ y, y ∈ (if isEpsilonS v then S
        else if checkForTerminalProduction (tableLookup tbl v) then listAdd S v
        else S) → y ∈ S ∨ y = v := by
      intro y hy
      split at hy
      · exact Or.inl hy
      · split at hy
        · exact mem_listAdd S v y hy
        · exact Or.inl hy
    rcases ih _ x hx with h | h
    · rcases step x h with h | h
      · exact Or.inl h
      · exact Or.inr (List.mem_cons.mpr (Or.inl h))
    · exact Or.inr (List.mem_cons_of_mem v h)

theorem initFold_nodup (tbl : Table) (l : List String) :
    ∀ S : List String, S.Nodup → (initFold tbl l S).Nodup := by
  induction l with
  | nil => exact fun S h => h
  | cons v l ih =>
    intro S hS
    rw [initFold_cons]
    refine ih _ ?_
    split
    · exact hS
    · split
      · exact listAdd_nodup S v hS
      · exact hS

theorem initFold_sound (tbl : Table) (l : List String) :
    ∀ S : List String, (∀ x ∈ S, ProductiveNT tbl x) →
      ∀ x ∈ initFold tbl l S, ProductiveNT tbl x := by
  induction l with
  | nil => exact fun S h => h
  | cons v l ih =>
    intro S hS x hx
    rw [initFold_cons] at hx
    refine ih _ ?_ x hx
    intro y hy
    split at hy
    · exact hS y hy
    · split at hy
      · next hcheck =>
        rcases mem_listAdd S v y hy with h | rfl
        · exact hS y h
        · unfold checkForTerminalProduction at hcheck
          rw [List.any_eq_true] at hcheck
          obtain ⟨prod, hprod, hpt⟩ := hcheck
          refine ProductiveNT.mk y prod hprod ?_
          intro s hs hsterm
          unfold bodySymbols at hs
          unfold isTerminalOnly at hpt
          split at hs
          · exact absurd hs (List.not_mem_nil s)
          · next heps =>
            rw [if_neg heps, List.all_eq_true] at hpt
            rw [hpt s hs] at hsterm
            exact absurd hsterm (by simp)
      · exact hS y hy

end KG

namespace KG

theorem mem_tableKeys_of_lookup {t : Table} {A prod : String}
    (h : prod ∈ tableLookup t A) : A ∈ tableKeys t := by
  unfold tableLookup at h
  split at h
  · next p heq =>
    have hmem := List.mem_of_find?_eq_some heq
    have hpred := List.find?_some heq
    rw [decide_eq_true_iff] at hpred
    rw [← hpred]
    exact List.mem_map.mpr ⟨p, hmem, rfl⟩
  · exact absurd h (List.not_mem_nil prod)

theorem productiveFix_sound (nts : List String) (tbl : Table) :
    ∀ x ∈ productiveFix nts tbl, ProductiveNT tbl x := by
  refine productiveLoop_sound nts tbl _ _ ?_
  exact initFold_sound tbl nts [] (by simp)

theorem productiveFix_stable (nts : List String) (tbl : Table) :
    productivePass nts tbl (productiveFix nts tbl) = productiveFix nts tbl := by
  refine productiveLoop_stable nts tbl _ _ ?_ ?_ ?_
  · exact initFold_nodup tbl nts [] List.nodup_nil
  · intro x hx
    rcases initFold_mem tbl nts [] x hx with h | h
    · exact absurd h (List.not_mem_nil x)
    · exact h
  · have h1 : nts.dedup.length ≤ nts.length :=
      List.Sublist.length_le (List.dedup_sublist nts)
    omega

theorem productiveFix_complete (nts : List String) (tbl : Table)
    (hkeys : ∀ k ∈ tableKeys tbl, k ∈ nts) (heps : ¬ "ε" ∈ tableKeys tbl)
    {A : String} (hA : ProductiveNT tbl A) : A ∈ productiveFix nts tbl := by
  induction hA with
  | mk A prod hm _ ih =>
    have hAkey : A ∈ tableKeys tbl := mem_tableKeys_of_lookup hm
    have hAnts : A ∈ nts := hkeys A hAkey
    have hAeps : isEpsilonS A = false := by
      unfold isEpsilonS
      rw [decide_eq_false_iff_not]
      rintro rfl
      exact heps hAkey
    have hcheck : checkForProductiveProduction (tableLookup tbl A)
        (productiveFix nts tbl) = true := by
      unfold checkForProductiveProduction
      rw [List.any_eq_true]
      refine ⟨prod, hm, ?_⟩
      unfold isProductiveProd
      by_cases hpe : isEpsilonS prod = true
      · rw [if_pos hpe]
      · rw [if_neg hpe, List.all_eq_true]
        intro s hs
        by_cases hst : isTerminalS s = true
        · exact Bool.or_eq_true_iff.mpr (Or.inl hst)
        · refine Bool.or_eq_true_iff.mpr (Or.inr ?_)
          rw [List.elem_iff]
          refine ih s ?_ (Bool.eq_false_iff.mpr hst)
          unfold bodySymbols
          rw [if_neg hpe]
          exact hs
    have := productivePass_complete nts tbl (productiveFix nts tbl) A hAnts hAeps hcheck
    rwa [productiveFix_stable nts tbl] at this

theorem mem_productiveFix_iff (nts : List String) (tbl : Table)
    (hkeys : ∀ k ∈ tableKeys tbl, k ∈ nts) (heps : ¬ "ε" ∈ tableKeys tbl)
    (A : String) : A ∈ productiveFix nts tbl ↔ ProductiveNT tbl A :=
  ⟨productiveFix_sound nts tbl A, productiveFix_complete nts tbl hkeys heps⟩

theorem reachableBFS_mono (tbl : Table) :
    ∀ (f : Nat) (reach q : List String), ∀ x ∈ reach, x ∈ reachableBFS tbl f reach q := by
  intro f
  induction f with
  | zero => intro reach q x hx; exact hx
  | succ f ih =>
    intro reach q x hx
    cases q with
    | nil => exact hx
    | cons v queue =>
      unfold reachableBFS
      split
      · exact ih reach queue x hx
      · exact ih _ _ x (List.mem_append.mpr (Or.inl hx))

theorem le_bfsFuel (tbl : Table) : 1 ≤ bfsFuel tbl := by
  unfold bfsFuel
  suffices h : ∀ (l : Table) (n : Nat),
      n ≤ l.foldl (fun n p => n + 1 + (p.2.map (fun prod => (psCore prod).length)).sum) n by
    exact h tbl 1
  intro l
  induction l with
  | nil => exact fun n => Nat.le_refl n
  | cons p l ih =>
    intro n
    calc n ≤ n + 1 + (p.2.map (fun prod => (psCore prod).length)).sum := by omega
      _ ≤ _ := ih _

theorem start_mem_reachable (tbl : Table) (start : String) :
    start ∈ getReachableVariables tbl start := by
  unfold getReachableVariables
  obtain ⟨f, hf⟩ : ∃ f, bfsFuel tbl = f + 1 := by
    have := le_bfsFuel tbl
    exact ⟨bfsFuel tbl - 1, by omega⟩
  rw [hf]
  show start ∈ reachableBFS tbl (Nat.succ f) [] [start]
  unfold reachableBFS
  split
  · next h => exact absurd h (List.not_mem_nil start)
  · exact reachableBFS_mono tbl f _ _ start (by simp)

end KG

namespace KG

theorem not_contains_iff (l : List String) (x : String) :
    (! l.contains x) = true ↔ ¬ x ∈ l := by
  simp

/-- Correctness of the reported emptiness flag: `computeIsProductive`
reports `true` exactly when no derivation from the start symbol reaches
a terminal-only word, and the flag of the visualization stage's result
step (`addResultStep`, computed from the productive-and-reachable set)
always agrees with it. -/
theorem emptinessFlag_correct (g : Grammar)
    (hkeys : ∀ k ∈ tableKeys g.productions, k ∈ g.nonTerminals)
    (heps : ¬ "ε" ∈ tableKeys g.productions)
    (hterm : isTerminalS g.startSymbol = false)
    (hne : ¬ g.startSymbol = "") :
    ((computeIsProductive g).2 = true ↔
      ¬ ∃ w, RewStar g.productions [g.startSymbol] w ∧ terminalOnly w)
    ∧ (stage1Run g).isEmptyLanguage = (computeIsProductive g).2 := by
  have hiffc : g.startSymbol ∈ productiveFix g.nonTerminals g.productions ↔
      ProductiveNT g.productions g.startSymbol :=
    mem_productiveFix_iff g.nonTerminals g.productions hkeys heps g.startSymbol
  have hflagc : (computeIsProductive g).2 =
      (! (productiveFix g.nonTerminals g.productions).contains g.startSymbol) := rfl
  have hderiv : ProductiveNT g.productions g.startSymbol ↔
      ∃ w, RewStar g.productions [g.startSymbol] w ∧ terminalOnly w :=
    productive_iff_derives g.productions g.startSymbol hterm
  have hmain : (computeIsProductive g).2 = true ↔
      ¬ ∃ w, RewStar g.productions [g.startSymbol] w ∧ terminalOnly w := by
    rw [hflagc, not_contains_iff]
    exact not_congr (hiffc.trans hderiv)
  refine ⟨hmain, ?_⟩
  have hfiltkeys : ∀ k ∈ tableKeys g.productions,
      k ∈ g.nonTerminals.filter (fun nt => ¬ isEpsilonS nt) := by
    intro k hk
    refine List.mem_filter.mpr ⟨hkeys k hk, ?_⟩
    rw [decide_eq_true_iff]
    intro hkeps
    unfold isEpsilonS at hkeps
    rw [decide_eq_true_iff] at hkeps
    exact heps (hkeps ▸ hk)
  have hifff : g.startSymbol ∈
        productiveFix (g.nonTerminals.filter (fun nt => ¬ isEpsilonS nt)) g.productions ↔
      ProductiveNT g.productions g.startSymbol :=
    mem_productiveFix_iff _ g.productions hfiltkeys heps g.startSymbol
  have hstage : (stage1Run g).isEmptyLanguage =
      (! ((stage1Run g).finalProductiveSet).contains g.startSymbol) := by
    unfold stage1Run
    rw [if_neg hne]
  rw [hstage, hflagc]
  rw [Bool.eq_iff_iff]
  rw [not_contains_iff, not_contains_iff]
  refine not_congr ?_
  have hfinal : (stage1Run g).finalProductiveSet =
      (productiveFix (g.nonTerminals.filter (fun nt => ¬ isEpsilonS nt)) g.productions).filter
        (fun v => ((stage1Run g).reachableSet).contains v) := rfl
  rw [hfinal]
  rw [List.mem_filter]
  constructor
  · rintro ⟨h1, _⟩
    exact hiffc.mpr (hifff.mp h1)
  · intro h1
    refine ⟨hifff.mpr (hiffc.mp h1), ?_⟩
    rw [List.elem_iff]
    have hreach : (stage1Run g).reachableSet =
        getReachableVariables (stage1Run g).productiveProductions
          (if g.startSymbol = "" then "S" else g.startSymbol) := rfl
    rw [hreach, if_neg hne]
    exact start_mem_reachable _ g.startSymbol

end KG

namespace KG

/-! ### Allocator analysis -/

theorem charVal_digitChar : ∀ d : Nat, d < 10 → charVal (Nat.digitChar d) = d := by
  decide

theorem unRepr_step (cs : List Char) (c : Char) :
    unRepr (cs ++ [c]) = 10 * unRepr cs + charVal c := by
  unfold unRepr
  rw [List.foldl_append]
  rfl

theorem unRepr_decAux : ∀ (f n : Nat), n ≤ f → unRepr (decAux f n) = n := by
  intro f
  induction f with
  | zero =>
    intro n hn
    have : n = 0 := Nat.le_zero.mp hn
    subst this
    rfl
  | succ f ih =>
    intro n hn
    unfold decAux
    split
    · next h =>
      show unRepr ([] ++ [Nat.digitChar n]) = n
      rw [unRepr_step]
      unfold unRepr
      simp [charVal_digitChar n h]
    · next h =>
      rw [unRepr_step]
      have h10 : 10 ≤ n := Nat.le_of_not_lt h
      have hdiv : n / 10 ≤ f := by
        have : n / 10 < n := Nat.div_lt_self (by omega) (by omega)
        omega
      rw [ih (n / 10) hdiv]
      rw [charVal_digitChar (n % 10) (Nat.mod_lt n (by omega))]
      omega

theorem unRepr_decRepr (n : Nat) : unRepr (decRepr n) = n :=
  unRepr_decAux (n + 1) n (Nat.le_succ n)

theorem decRepr_injective : Function.Injective decRepr := by
  intro a b h
  have := unRepr_decRepr a
  rw [h, unRepr_decRepr] at this
  omega

theorem dName_injective : Function.Injective dName := by
  intro a b h
  unfold dName at h
  have hdata : 'D' :: decRepr a = 'D' :: decRepr b := congrArg String.data h
  exact decRepr_injective (List.cons.injEq _ _ _ _ ▸ hdata |>.2)

/-- Pigeonhole: among the first `used.length + 1` counters some `D`-name
is unused. -/
theorem exists_free_dName (used : List String) :
    ∃ k ≤ used.length, ¬ dName k ∈ used := by
  by_contra hc
  push_neg at hc
  have hmap : ∀ x ∈ (List.range (used.length + 1)).map dName, x ∈ used.toFinset := by
    intro x hx
    rw [List.mem_map] at hx
    obtain ⟨k, hk, rfl⟩ := hx
    rw [List.mem_range] at hk
    rw [List.mem_toFinset]
    exact hc k (by omega)
  have hnd : ((List.range (used.length + 1)).map dName).Nodup :=
    (List.nodup_range _).map dName_injective
  have hlen := nodup_subset_length (l := used) hnd
    (fun x hx => List.mem_toFinset.mp (hmap x hx))
  rw [List.length_map, List.length_range] at hlen
  have hdl : used.dedup.length ≤ used.length :=
    List.Sublist.length_le (List.dedup_sublist used)
  omega

theorem dLoop_spec (used : List String) :
    ∀ (f c : Nat), (∃ k ≤ f, ¬ dName (c + k) ∈ used) →
      ¬ dLoop used f c ∈ used ∧
        ∃ k, dLoop used f c = dName (c + k) ∧ ∀ j < k, dName (c + j) ∈ used := by
  intro f
  induction f with
  | zero =>
    intro c ⟨k, hk, hfree⟩
    have : k = 0 := Nat.le_zero.mp hk
    subst this
    exact ⟨hfree, 0, rfl, by omega⟩
  | succ f ih =>
    intro c ⟨k, hk, hfree⟩
    unfold dLoop
    split
    · next hmem =>
      have hkne : k ≠ 0 := by
        rintro rfl
        exact absurd hmem (by simpa using hfree)
      obtain ⟨res1, k', hk', hmin⟩ := ih (c + 1)
        ⟨k - 1, by omega, by
          have : c + 1 + (k - 1) = c + k := by omega
          rw [this]; exact hfree⟩
      refine ⟨res1, k' + 1, by rw [hk']; congr 1; omega, ?_⟩
      intro j hj
      cases j with
      | zero => simpa using hmem
      | succ j =>
        have := hmin j (by omega)
        have heq : c + 1 + j = c + (j + 1) := by omega
        rwa [heq] at this
    · next hmem => exact ⟨hmem, 0, rfl, by omega⟩

/-- The binary-cascade allocator always returns an unused name. -/
theorem allocateNewVariable6_unused (used : List String) :
    ¬ allocateNewVariable6 used ∈ used := by
  unfold allocateNewVariable6
  split
  · next c hc =>
    have := List.find?_some hc
    rw [decide_eq_true_iff] at this
    exact this
  · obtain ⟨k, hk, hfree⟩ := exists_free_dName used
    exact (dLoop_spec used (used.length + 1) 0 ⟨k, by omega, by simpa using hfree⟩).1

/-- On the `D`-fallback path the cascade allocator takes the least
unused counter. -/
theorem allocateNewVariable6_least (used : List String)
    (hall : letterCandidates.find? (fun c => ¬ c ∈ used) = none) :
    ∃ k, allocateNewVariable6 used = dName k ∧ ¬ dName k ∈ used ∧
      ∀ j < k, dName j ∈ used := by
  unfold allocateNewVariable6
  rw [hall]
  obtain ⟨k0, hk0, hfree⟩ := exists_free_dName used
  obtain ⟨h1, k, hk, hmin⟩ :=
    dLoop_spec used (used.length + 1) 0 ⟨k0, by omega, by simpa using hfree⟩
  refine ⟨k, by simpa using hk, ?_, ?_⟩
  · have : dName (0 + k) = dName k := by rw [Nat.zero_add]
    rw [this] at hk
    rw [← hk]; exact h1
  · intro j hj
    simpa using hmin j hj

end KG

namespace KG

/-- The pure elimination round and the heap round agree on the visible
table, so the heap model is the same algorithm with references made
explicit. -/
theorem storeElim_agrees_example :
    materialize
        (storeElimEps [["AB"], ["eps", "a"], ["eps", "b"], ["S"]]
          [("S", 0), ("A", 1), ("B", 2), ("S0", 3)] "A").1
        (storeElimEps [["AB"], ["eps", "a"], ["eps", "b"], ["S"]]
          [("S", 0), ("A", 1), ("B", 2), ("S0", 3)] "A").2
      = eliminateEpsVar [("S", ["AB"]), ("A", ["eps", "a"]),
          ("B", ["eps", "b"]), ("S0", ["S"])] "A" := by
  decide

end KG

namespace KG

theorem tableLookup_tableSet (t : Table) (k : String) (v : List String) :
    tableLookup (tableSet t k v) k = v := by
  induction t with
  | nil =>
    show tableLookup [(k, v)] k = v
    unfold tableLookup
    simp [List.find?]
  | cons p rest ih =>
    unfold tableSet
    split
    · unfold tableLookup
      simp [List.find?]
    · next hne =>
      show tableLookup ((p.1, p.2) :: tableSet rest k v) k = v
      unfold tableLookup
      simp only [List.find?]
      rw [show (decide (p.1 = k)) = false from decide_eq_false_iff_not.mpr hne]
      exact ih

theorem parseLineStep_start (g : Grammar) (line : List Char) :
    (parseLineStep g line).startSymbol = g.startSymbol := by
  unfold parseLineStep
  split
  · rfl
  · next lhs prods _ =>
    cases hcs : collectSymbols (listAdd g.nonTerminals lhs) g.terminals prods
    simp [hcs]

theorem foldParse_start (lines : List (List Char)) :
    ∀ g : Grammar, (lines.foldl parseLineStep g).startSymbol = g.startSymbol := by
  induction lines with
  | nil => exact fun g => rfl
  | cons line lines ih =>
    intro g
    show (lines.foldl parseLineStep (parseLineStep g line)).startSymbol = _
    rw [ih (parseLineStep g line), parseLineStep_start]

theorem ensureStartSymbol_start (g : Grammar) :
    (ensureStartSymbol g).startSymbol = g.startSymbol := by
  unfold ensureStartSymbol
  split
  · rfl
  · rfl

theorem ensureStartSymbol_key (g : Grammar) :
    "S" ∈ tableKeys (ensureStartSymbol g).productions := by
  unfold ensureStartSymbol
  split
  · next h => exact h
  · show "S" ∈ tableKeys (g.productions ++ [("S", [])])
    unfold tableKeys
    rw [List.map_append]
    exact List.mem_append.mpr (Or.inr (by simp))

theorem g2_derives_a_chain (n : Nat) :
    RewStar (parseGrammar g2Text).productions ["A"]
      (List.replicate n "a" ++ ["b"]) := by
  have h1 : Rew (parseGrammar g2Text).productions ["A"] ["C"] := by
    have := Rew.step (t := (parseGrammar g2Text).productions) [] [] "A" "C" (by decide)
    simpa [bodySymbols, isEpsilonS, psCore, psAux] using this
  have h2 : Rew (parseGrammar g2Text).productions ["C"] ["D"] := by
    have := Rew.step (t := (parseGrammar g2Text).productions) [] [] "C" "D" (by decide)
    simpa [bodySymbols, isEpsilonS, psCore, psAux] using this
  have h3b : Rew (parseGrammar g2Text).productions ["D"] ["b"] := by
    have := Rew.step (t := (parseGrammar g2Text).productions) [] [] "D" "b" (by decide)
    simpa [bodySymbols, isEpsilonS, psCore, psAux] using this
  have h3a : Rew (parseGrammar g2Text).productions ["D"] ["a", "A"] := by
    have := Rew.step (t := (parseGrammar g2Text).productions) [] [] "D" "aA" (by decide)
    simpa [bodySymbols, isEpsilonS, psCore, psAux] using this
  have hAD : RewStar (parseGrammar g2Text).productions ["A"] ["D"] :=
    Relation.ReflTransGen.tail (Relation.ReflTransGen.single h1) h2
  induction n with
  | zero => simpa using Relation.ReflTransGen.tail hAD h3b
  | succ n ih =>
    have hstep : RewStar (parseGrammar g2Text).productions ["A"] ["a", "A"] :=
      Relation.ReflTransGen.tail hAD h3a
    have hctx := rewStar_context (parseGrammar g2Text).productions ["a"] [] ih
    have hfull : RewStar (parseGrammar g2Text).productions ["A"]
        ("a" :: (List.replicate n "a" ++ ["b"])) := by
      refine Relation.ReflTransGen.trans hstep ?_
      simpa using hctx
    simpa [List.replicate_succ] using hfull

end KG

namespace KG

/-! ### Claim theorems -/

/-- C1: the claim says every production surviving the binary-cascading
stage is a single terminal, two nonterminals, or the start symbol's
epsilon — in particular nothing of three or more symbols.  Running the
full pipeline on `S -> aaa | bbb` refutes it: the cascade deletes by a
stale index (`current[A].filter((p, idx) => idx !== i)` after the array
has already been rewritten), so the second long production `YYY` of
`S0` survives with three symbols in the final grammar. -/
theorem claim1_long_production_survives_cascade :
    "YYY" ∈ tableLookup (buildAllStepsRun (parseGrammar "S -> aaa | bbb")).finalTable "S0" ∧
    (psBin "YYY").length = 3 := by
  decide

/-- C2: the emptiness flag of the productivity stage is true exactly
when no derivation from the start symbol reaches a terminal-only word
(the empty word counting as such), equivalently exactly when the start
symbol misses the productive fixpoint; the result-step flag and
`computeIsProductive` agree.  Hypotheses are the parser's guarantees:
every rule key is listed among the nonterminals, epsilon is not a rule
key, and the start symbol is a nonempty non-terminal name. -/
theorem claim2_emptiness_flag_correct (g : Grammar)
    (hkeys : ∀ k ∈ tableKeys g.productions, k ∈ g.nonTerminals)
    (heps : ¬ "ε" ∈ tableKeys g.productions)
    (hterm : isTerminalS g.startSymbol = false)
    (hne : ¬ g.startSymbol = "") :
    ((computeIsProductive g).2 = true ↔
      ¬ ∃ w, RewStar g.productions [g.startSymbol] w ∧ terminalOnly w)
    ∧ (stage1Run g).isEmptyLanguage = (computeIsProductive g).2 :=
  emptinessFlag_correct g hkeys heps hterm hne

/-- Witness for C2 at the grammar `S -> S`: the flag is reported true
and indeed no terminal word is derivable. -/
theorem claim2_emptiness_flag_correct_w :
    ((computeIsProductive (parseGrammar "S -> S")).2 = true ↔
      ¬ ∃ w, RewStar (parseGrammar "S -> S").productions
        [(parseGrammar "S -> S").startSymbol] w ∧ terminalOnly w)
    ∧ (stage1Run (parseGrammar "S -> S")).isEmptyLanguage
        = (computeIsProductive (parseGrammar "S -> S")).2 :=
  claim2_emptiness_flag_correct (parseGrammar "S -> S")
    (by decide) (by decide) (by decide) (by decide)

/-- C3: the claim says the cycle check on the final grammar decides
finiteness of the language.  On `S -> cA | d, A -> C, C -> D,
D -> aA | b` the unit-elimination defect (one-step closures read in
alphabetical order) strips `A` of every production, the final
dependency graph is acyclic and the tool reports a finite language —
yet the input grammar derives `c a^n b` for every `n`, so its language
is infinite. -/
theorem claim3_finiteness_flag_wrong :
    (buildAllStepsRun (parseGrammar g2Text)).isInfinite = false ∧
    ∀ n : Nat, ∃ w, RewStar (parseGrammar g2Text).productions ["S"] w ∧
      terminalOnly w ∧ n < w.length := by
  refine ⟨by decide, ?_⟩
  intro n
  refine ⟨"c" :: (List.replicate n "a" ++ ["b"]), ?_, ?_, ?_⟩
  · have hS : Rew (parseGrammar g2Text).productions ["S"] ["c", "A"] := by
      have := Rew.step (t := (parseGrammar g2Text).productions) [] [] "S" "cA" (by decide)
      simpa [bodySymbols, isEpsilonS, psCore, psAux] using this
    have hctx := rewStar_context (parseGrammar g2Text).productions ["c"] []
      (g2_derives_a_chain n)
    refine Relation.ReflTransGen.trans (Relation.ReflTransGen.single hS) ?_
    simpa using hctx
  · intro s hs
    rcases List.mem_cons.mp hs with rfl | hs
    · decide
    · rcases List.mem_append.mp hs with hs | hs
      · rw [List.eq_of_mem_replicate hs]; decide
      · rw [List.mem_singleton.mp hs]; decide
  · have : ("c" :: (List.replicate n "a" ++ ["b"])).length = n + 2 := by simp
    omega

/-- C4: the claim says `computeUnitClosure` yields the reflexive and
transitive closure of the unit-production relation.  On the chain
`A -> B, B -> C, C -> b` the computed closure of `A` is `{A, B}` only —
the fixpoint pass re-reads each variable's own direct unit productions
and never the closure — so `C`, reachable by two unit steps, is
missing, exactly the case the repository's own `test_grammar_debug.js`
expects to give `Closure = {C, A, B}`. -/
theorem claim4_unit_closure_not_transitive :
    "B" ∈ tableLookup [("A", ["B"]), ("B", ["C"]), ("C", ["b"])] "A" ∧
    "C" ∈ tableLookup [("A", ["B"]), ("B", ["C"]), ("C", ["b"])] "B" ∧
    closureLookup (computeUnitClosure [("A", ["B"]), ("B", ["C"]), ("C", ["b"])]) "A"
      = ["A", "B"] ∧
    ¬ "C" ∈ closureLookup
        (computeUnitClosure [("A", ["B"]), ("B", ["C"]), ("C", ["b"])]) "A" := by
  decide

/-- C5: the claim says the nullable set is a fixpoint closed under
productions whose symbols are all nullable.  The stage only collects
variables owning a literal `eps` alternative: with `S -> AB`,
`A -> eps | a`, `B -> eps | b` the computed set is `{A, B}` and `S` is
missing although its production `AB` consists solely of nullable
nonterminals. -/
theorem claim5_nullable_not_fixpoint :
    findNullableVars
        [("S0", ["S"]), ("S", ["AB"]), ("A", ["eps", "a"]), ("B", ["eps", "b"])] "S0"
      = ["A", "B"] ∧
    "AB" ∈ tableLookup
        [("S0", ["S"]), ("S", ["AB"]), ("A", ["eps", "a"]), ("B", ["eps", "b"])] "S" ∧
    psEps "AB" = ["A", "B"] ∧
    ¬ "S" ∈ findNullableVars
        [("S0", ["S"]), ("S", ["AB"]), ("A", ["eps", "a"]), ("B", ["eps", "b"])] "S0" := by
  decide

/-- C6: at the start of the epsilon stage the fresh start symbol `S0`
receives exactly `oldStart | eps` when the old start symbol owns an
epsilon alternative (the stage's epsilon marker `eps`), and exactly
`oldStart` otherwise — for every working table and old start symbol. -/
theorem claim6_new_start_rule (tbl : Table) (oldStart : String) :
    tableLookup (introNewStart tbl oldStart "S0") "S0" =
      (if (tableLookup tbl oldStart).contains "eps" then [oldStart, "eps"]
       else [oldStart]) := by
  unfold introNewStart
  exact tableLookup_tableSet tbl "S0" _

/-- C7 counterexample: on `S -> S` the language is reported empty, yet
the emitted trace still contains epsilon-stage, isolation-stage and
cascading-stage events — the pipeline did not stop after the
productivity stage. -/
theorem claim7_counterexample :
    (stage1Run (parseGrammar "S -> S")).isEmptyLanguage = true ∧
    "cnf-eps" ∈ buildAllStepsStages (parseGrammar "S -> S") ∧
    "cnf-long" ∈ buildAllStepsStages (parseGrammar "S -> S") ∧
    "cnf-binary" ∈ buildAllStepsStages (parseGrammar "S -> S") := by
  decide

/-- C7 amended: `buildAllSteps` never skips a stage — for every parsed
grammar, including ones whose language is empty, the trace contains
events of the epsilon-elimination, terminal-isolation and
binary-cascading stages. -/
theorem epsUnitStages_head (g : Grammar) (cnf : Table) :
    ∃ rest, epsUnitStages g cnf = "cnf-eps" :: rest := by
  unfold epsUnitStages
  exact ⟨_, rfl⟩

theorem claim7_no_stage_skipped (g : Grammar) :
    "cnf-eps" ∈ buildAllStepsStages g ∧
    "cnf-long" ∈ buildAllStepsStages g ∧
    "cnf-binary" ∈ buildAllStepsStages g := by
  obtain ⟨rest, hr⟩ :=
    epsUnitStages_head g (buildBaseCNF g (stage1Run g).finalProductiveSet)
  have hb : buildAllStepsStages g =
      stage1Stages g ++ ["cnf-build", "cnf-build"] ++
        epsUnitStages g (buildBaseCNF g (stage1Run g).finalProductiveSet) ++
        ["cnf-long", "cnf-long"] ++ ["cnf-binary", "cnf-binary", "cnf-binary"] := rfl
  refine ⟨?_, ?_, ?_⟩ <;> rw [hb]
  · rw [hr]
    simp [List.mem_append]
  · simp [List.mem_append]
  · simp [List.mem_append]

/-- C8 counterexample: when all twenty-six letters are in use the
isolation-stage allocator returns the fixed name `Z`, which is itself
in use — contradicting the claim that every call returns an unused
name via the `D0, D1, ...` fallback. -/
theorem claim8_counterexample :
    allocateNewVariable4 letterCandidates = "Z" ∧ "Z" ∈ letterCandidates := by
  decide

/-- C8 amended: the binary-cascading allocator always returns a name
not in use — the first unused letter from `Z` down to `A`, or `D` with
the least unused counter once the letters are exhausted; the
terminal-isolation allocator agrees while an unused letter exists but
falls back to the constant `Z` (a possible collision) when none does. -/
theorem claim8_allocator_policy (used : List String) :
    ¬ allocateNewVariable6 used ∈ used ∧
    (∀ l, letterCandidates.find? (fun c => ¬ c ∈ used) = some l →
      allocateNewVariable6 used = l ∧ allocateNewVariable4 used = l ∧ ¬ l ∈ used) ∧
    (letterCandidates.find? (fun c => ¬ c ∈ used) = none →
      allocateNewVariable4 used = "Z" ∧
      ∃ k, allocateNewVariable6 used = dName k ∧ ¬ dName k ∈ used ∧
        ∀ j < k, dName j ∈ used) := by
  refine ⟨allocateNewVariable6_unused used, ?_, ?_⟩
  · intro l hl
    have hmem := List.find?_some hl
    rw [decide_eq_true_iff] at hmem
    refine ⟨?_, ?_, hmem⟩
    · unfold allocateNewVariable6; rw [hl]
    · unfold allocateNewVariable4; rw [hl]
  · intro hnone
    refine ⟨?_, allocateNewVariable6_least used hnone⟩
    unfold allocateNewVariable4; rw [hnone]

/-- Witness for C8: with every letter taken the cascade allocator
still returns an unused name while the isolation allocator returns the
colliding `Z`; with nothing taken both return `Z`. -/
theorem claim8_allocator_policy_w :
    ¬ allocateNewVariable6 letterCandidates ∈ letterCandidates ∧
    allocateNewVariable4 letterCandidates = "Z" ∧
    allocateNewVariable6 ([] : List String) = "Z" :=
  ⟨(claim8_allocator_policy letterCandidates).1,
   ((claim8_allocator_policy letterCandidates).2.2 (by decide)).1,
   ((claim8_allocator_policy ([] : List String)).2.1 "Z" (by decide)).1⟩

/-- C9: the epsilon-stage snapshots are shallow object spreads whose
production arrays alias the working table.  In the heap model of the
stage on `S -> AB, A -> eps | a, B -> eps | b`, the step emitted for
eliminating `A` records `S -> AB | B`; after the later elimination of
`B` pushes into the shared array, reading that same snapshot yields
`S -> AB | B | A` — a later operation changed the recorded lists. -/
theorem claim9_snapshot_aliased :
    tableLookup (((storeEpsRun
        [("S", ["AB"]), ("A", ["eps", "a"]), ("B", ["eps", "b"]), ("S0", ["S"])]
        "S0").2.2.getD 0 ⟨[], []⟩).atEmission) "S" = ["AB", "B"] ∧
    tableLookup (materialize
        (storeEpsRun
          [("S", ["AB"]), ("A", ["eps", "a"]), ("B", ["eps", "b"]), ("S0", ["S"])]
          "S0").1
        (((storeEpsRun
            [("S", ["AB"]), ("A", ["eps", "a"]), ("B", ["eps", "b"]), ("S0", ["S"])]
            "S0").2.2.getD 0 ⟨[], []⟩).snapRefs)) "S" = ["AB", "B", "A"] ∧
    ¬ (((storeEpsRun
          [("S", ["AB"]), ("A", ["eps", "a"]), ("B", ["eps", "b"]), ("S0", ["S"])]
          "S0").2.2.getD 0 ⟨[], []⟩).atEmission)
      = materialize
          (storeEpsRun
            [("S", ["AB"]), ("A", ["eps", "a"]), ("B", ["eps", "b"]), ("S0", ["S"])]
            "S0").1
          (((storeEpsRun
              [("S", ["AB"]), ("A", ["eps", "a"]), ("B", ["eps", "b"]), ("S0", ["S"])]
              "S0").2.2.getD 0 ⟨[], []⟩).snapRefs) := by
  decide

/-- C10: the parser always reports start symbol `S` and always has a
rule slot for `S`; consequently an input defining only other
nonterminals, such as `A -> a`, is analyzed with an unproductive start
symbol and reported as the empty language by both flag computations. -/
theorem claim10_parser_start_symbol (text : String) :
    (parseGrammar text).startSymbol = "S" ∧
    "S" ∈ tableKeys (parseGrammar text).productions ∧
    (stage1Run (parseGrammar "A -> a")).isEmptyLanguage = true ∧
    (computeIsProductive (parseGrammar "A -> a")).2 = true := by
  refine ⟨?_, ensureStartSymbol_key _, by decide, by decide⟩
  unfold parseGrammar
  rw [ensureStartSymbol_start, foldParse_start]
  rfl

end KG
